import Mathlib

/-! # editorjs-code: the text-region logic of `src/index.js`

A shallow embedding of the `Code` block tool: the paste handler `_onPaste`, the Tab
handler `_tabHandler`, `_setSelection`, `validate`, and the two configuration getters
`availableLanguages` and `userDefaultLanguage`.

JavaScript strings are sequences of UTF-16 code units, and `length`, `slice`,
`indexOf`, `lastIndexOf`, DOM range offsets and regular expressions without the `u`
flag all count in code units.  A buffer is therefore a list of code units.  Language
identifiers are only ever compared for equality, so they are kept as `String`.
-/

namespace EditorjsCode

/-! ## Strings as code-unit sequences -/

/-- One UTF-16 code unit. -/
abbrev CodeUnit := Nat

/-- A JavaScript string value: its sequence of code units. -/
abbrev JSString := List CodeUnit

/-- The code units of a literal made of Basic-Multilingual-Plane characters. -/
def ofString (s : String) : JSString := s.toList.map Char.toNat

/-- The newline code unit, the `'\n'` of the source. -/
def NL : CodeUnit := 10

/-- The space code unit. -/
def SP : CodeUnit := 32

/-! ## The built-ins of the language that the source calls -/

/-- `String.prototype.slice(start, end)`: negative arguments count from the end, both
are clamped to the string, an absent `end` is the length, and the result is empty when
the clamped start is not below the clamped end. -/
def slice (s : JSString) (start : Int) (stop : Option Int) : JSString :=
  let len : Int := s.length
  let clampRel : Int → Int := fun r => if r < 0 then max (len + r) 0 else min r len
  let lo := clampRel start
  let hi := match stop with
    | none => len
    | some e => clampRel e
  (s.drop lo.toNat).take (max (hi - lo) 0).toNat

/-- Downward scan of `lastIndexOf`: the greatest index `≤ k` holding `c`, or `-1`. -/
def lastIndexOfFrom (s : JSString) (c : CodeUnit) : Nat → Int
  | 0 => if s[0]? = some c then 0 else -1
  | k + 1 => if s[k + 1]? = some c then ((k + 1 : Nat) : Int) else lastIndexOfFrom s c k

/-- `String.prototype.lastIndexOf(c, position)` for a one-code-unit search string: the
position is clamped to `[0, length - 1]` and the scan runs downward from there. -/
def lastIndexOf (s : JSString) (c : CodeUnit) (position : Int) : Int :=
  if s.length = 0 then -1
  else lastIndexOfFrom s c (min (max position 0).toNat (s.length - 1))

/-- Upward scan of `indexOf` over a suffix whose first element has index `k`. -/
def indexOfAux (c : CodeUnit) : JSString → Nat → Int
  | [], _ => -1
  | x :: xs, k => if x = c then (k : Int) else indexOfAux c xs (k + 1)

/-- `String.prototype.indexOf(c, position)` for a one-code-unit search string: the
position is clamped to `[0, length]` and the scan runs upward from there. -/
def indexOf (s : JSString) (c : CodeUnit) (position : Int) : Int :=
  let start := min (max position 0).toNat s.length
  indexOfAux c (s.drop start) start

/-- The `LineTerminator` code points of the regular-expression grammar: LF, CR, LS, PS.
With the `m` flag, `^` matches at index 0 and right after any of them. -/
def isLineTerminator (c : CodeUnit) : Bool :=
  c == 0x0A || c == 0x0D || c == 0x2028 || c == 0x2029

/-- The assertion `^` under the `m` flag at index `i` of the input `s`. -/
def atLineStart (s : JSString) (i : Nat) : Bool :=
  i == 0 ||
    (match s[i - 1]? with
     | some c => isLineTerminator c
     | none => false)

/-- A compiled pattern: for an input and an index, the end index of the match that
starts at that index, if there is one. -/
abbrev Matcher := JSString → Nat → Option Nat

/-- The pattern `/^/m`: an empty match at every line start. -/
def matchLineStart : Matcher := fun s i =>
  if atLineStart s i then some i else none

/-- The pattern `/^ {4}/m`: four spaces at a line start. -/
def matchLineStartSpaces4 : Matcher := fun s i =>
  if atLineStart s i && (s.drop i).take 4 == [SP, SP, SP, SP] then some (i + 4) else none

/-- The loop of `String.prototype.replace` for a pattern with the `g` flag and a
replacement without `$` patterns, from `lastIndex = i`.  A match copies the
replacement and resumes at its end; an empty match resumes one code unit further,
copying that code unit; where nothing matches the code unit is copied. -/
def replaceAllLoop (m : Matcher) (rep : JSString) (s : JSString) : Nat → Nat → JSString
  | 0, _ => []
  | fuel + 1, i =>
    if s.length < i then []
    else
      match m s i with
      | some e =>
        if e = i then rep ++ (s.drop i).take 1 ++ replaceAllLoop m rep s fuel (i + 1)
        else rep ++ replaceAllLoop m rep s fuel e
      | none => (s.drop i).take 1 ++ replaceAllLoop m rep s fuel (i + 1)

/-- The call `s.replace(pattern, rep)` for a global pattern.  Every step of the loop
moves `lastIndex` forward, so `length + 2` steps reach the end of the input. -/
def replaceAll (m : Matcher) (rep : JSString) (s : JSString) : JSString :=
  replaceAllLoop m rep s (s.length + 2) 0

/-- The code points `String.prototype.trim` strips: `WhiteSpace` (TAB, VT, FF, ZWNBSP
and the space separators) and `LineTerminator`. -/
def isTrimmed (c : CodeUnit) : Bool :=
  c == 0x09 || c == 0x0A || c == 0x0B || c == 0x0C || c == 0x0D || c == 0x20 ||
  c == 0xA0 || c == 0x1680 || (0x2000 ≤ c && c ≤ 0x200A) || c == 0x2028 || c == 0x2029 ||
  c == 0x202F || c == 0x205F || c == 0x3000 || c == 0xFEFF

/-- `String.prototype.trim`. -/
def trim (s : JSString) : JSString :=
  (s.dropWhile isTrimmed).rdropWhile isTrimmed

/-! ## The handlers of `Code` -/

/-- The offsets of the first range of the window selection. -/
structure Range where
  startOffset : Nat
  endOffset : Nat
deriving DecidableEq, Repr

/-- What a handler leaves behind: the new `textContent` of the code element, the two
numbers it passes to `_setSelection`, and the range `_setSelection` adds to the
selection, if it gets that far. -/
structure Outcome where
  textContent : JSString
  selStart : Int
  selEnd : Int
  range : Option (Int × Int)
deriving DecidableEq, Repr

/-- The method `_setSelection(element, start, end)` for an element whose text is `text`:
the offsets of the range it adds to the selection, or `none` when it throws before
adding one.  After `textContent` is assigned, `element.firstChild` is the one text node
holding `text`, and it is null when `text` is empty, so that `range.setStart(null, ...)`
throws a TypeError.  `setStart` and `setEnd` throw an IndexSizeError for an offset
beyond the node; `setStart` on the fresh range collapses it to the start offset, and
`setEnd` with an offset before the start moves the start to it.  Offsets stay below
2^32 for any buffer an engine can hold, so their conversion to `unsigned long` is the
identity. -/
def _setSelection (text : JSString) (start stop : Int) : Option (Int × Int) :=
  if text = [] then none
  else
    let s : Int := if start < 0 then 0 else start
    let e : Int := if stop < 0 then (text.length : Int) else stop
    if (text.length : Int) < s then none
    else if (text.length : Int) < e then none
    else if e < s then some (e, e)
    else some (s, e)

/-- Assemble the outcome of a handler that sets `text` and then calls `_setSelection`. -/
def finish (text : JSString) (start stop : Int) : Outcome :=
  { textContent := text
    selStart := start
    selEnd := stop
    range := _setSelection text start stop }

/-- The handler `_onPaste` on a buffer `codeContent`, a selection and the clipboard text. -/
def _onPaste (codeContent : JSString) (range : Range) (clipboardText : JSString) : Outcome :=
  let startOffset : Int := range.startOffset
  let endOffset : Int := range.endOffset
  let beforeSelection := slice codeContent 0 (some startOffset)
  let selectionText := slice codeContent startOffset (some endOffset)
  let afterSelection := slice codeContent endOffset none
  let text := beforeSelection ++ clipboardText ++ afterSelection
  let lengthChange : Int := (clipboardText.length : Int) - (selectionText.length : Int)
  finish text startOffset (endOffset + lengthChange)

/-- The constant `startLineStartIndex` of `_tabHandler`. -/
def startLineStartIndex (codeContent : JSString) (range : Range) : Int :=
  lastIndexOf codeContent NL ((range.startOffset : Int) - 1) + 1

/-- The constant `endLineEndIndex` of `_tabHandler`. -/
def endLineEndIndex (codeContent : JSString) (range : Range) : Int :=
  indexOf codeContent NL (range.endOffset : Int)

/-- The constant `adjustedEndLineEndIndex` of `_tabHandler`. -/
def adjustedEndLineEndIndex (codeContent : JSString) (range : Range) : Int :=
  if endLineEndIndex codeContent range = -1 then (codeContent.length : Int)
  else endLineEndIndex codeContent range

/-- The constant `selectionText` of `_tabHandler`: the region that is transformed. -/
def selectionText (codeContent : JSString) (range : Range) : JSString :=
  slice codeContent (startLineStartIndex codeContent range)
    (some (adjustedEndLineEndIndex codeContent range))

/-- The indentation unit, the replacement `'    '` of the source. -/
def indentUnit : JSString := [SP, SP, SP, SP]

/-- The value `newSelectionText` of `_tabHandler`. -/
def newSelectionText (region : JSString) (shiftKey : Bool) : JSString :=
  if shiftKey then replaceAll matchLineStartSpaces4 [] region
  else replaceAll matchLineStart indentUnit region

/-- The handler `_tabHandler` on a buffer, a selection and the shift flag of the event. -/
def _tabHandler (codeContent : JSString) (range : Range) (shiftKey : Bool) : Outcome :=
  let beforeSelection := slice codeContent 0 (some (startLineStartIndex codeContent range))
  let region := selectionText codeContent range
  let afterSelection := slice codeContent (adjustedEndLineEndIndex codeContent range) none
  let newText := newSelectionText region shiftKey
  let text := beforeSelection ++ newText ++ afterSelection
  let lengthChange : Int := (newText.length : Int) - (region.length : Int)
  finish text (startLineStartIndex codeContent range)
    (adjustedEndLineEndIndex codeContent range + lengthChange)

/-- The method `validate` applied to a record whose `code` field is the given string. -/
def validate (code : JSString) : Bool :=
  trim code != []

/-! ## Configuration -/

/-- The static list `Code.LANGUAGES`. -/
def LANGUAGES : List String :=
  ["apache", "applescript", "bash", "basic", "csharp", "c", "cpp", "cobol", "css",
   "coffeescript", "cypher", "dart", "dockerfile", "dos", "erlang", "fortran", "golang",
   "gradle", "graphql", "groovy", "gsql", "html", "xml", "haskell", "json", "java",
   "javascript", "julia", "kotlin", "lisp", "lua", "markdown", "matlab", "nginx",
   "objectivec", "php", "perl", "plaintext", "postgresql", "powershell", "puppet",
   "python", "ruby", "rust", "scss", "sql", "scala", "shell", "swift", "terraform",
   "tsql", "typescript", "vbnet", "vba", "vbscript", "vim", "yaml", "zephir"]

/-- The static constant `Code.DEFAULT_LANGUAGE`. -/
def DEFAULT_LANGUAGE : String := "plaintext"

/-- The tool configuration: both fields are optional, `languages` is a string array
and `defaultLanguage` a string. -/
structure Config where
  languages : Option (List String)
  defaultLanguage : Option String
deriving DecidableEq, Repr

/-- The getter `availableLanguages`.  An array, even an empty one, is truthy. -/
def availableLanguages (config : Config) : List String :=
  match config.languages with
  | some langs => LANGUAGES.filter (fun language => langs.contains language)
  | none => LANGUAGES

/-- JavaScript truthiness of an optional string: present and not empty. -/
def truthy (v : Option String) : Bool :=
  match v with
  | some s => s != ""
  | none => false

/-- The getter `userDefaultLanguage`; the console warning is not modelled. -/
def userDefaultLanguage (config : Config) : String :=
  if truthy config.defaultLanguage then
    let userSpecified := (availableLanguages config).find?
      (fun language => some language == config.defaultLanguage)
    if truthy userSpecified then userSpecified.getD DEFAULT_LANGUAGE
    else DEFAULT_LANGUAGE
  else DEFAULT_LANGUAGE

/-! ## Vocabulary of the specification -/

/-- The lines of a text with respect to a set of terminators; each line keeps the
terminator that ends it, and the last line (possibly empty) has none. -/
def linesBy (term : CodeUnit → Bool) : JSString → List JSString
  | [] => [[]]
  | c :: cs =>
    if term c then [c] :: linesBy term cs
    else
      match linesBy term cs with
      | [] => [[c]]
      | l :: ls => (c :: l) :: ls

/-- The terminator set of the line-expansion rule: the newline alone. -/
def isNewline (c : CodeUnit) : Bool := c == NL

/-- Remove one indentation unit from a line that begins with one. -/
def stripUnit (l : JSString) : JSString :=
  if l.take 4 = indentUnit then l.drop 4 else l

/-- A selection within the bounds of a buffer. -/
def InRange (buffer : JSString) (range : Range) : Prop :=
  range.startOffset ≤ range.endOffset ∧ range.endOffset ≤ buffer.length

instance (buffer : JSString) (range : Range) : Decidable (InRange buffer range) := by
  unfold InRange; infer_instance

/-- Apply `f` to every line but leave the first one alone unless `ls` holds. -/
def mapLinesFrom (f : JSString → JSString) (ls : Bool) (t : JSString) : JSString :=
  match linesBy isLineTerminator t with
  | [] => []
  | l :: rest => (if ls then f l else l) ++ (rest.map f).flatten

/-- The expanded region starts at `regionStart` (as a natural number). -/
def regionStart (B : JSString) (S : Range) : Nat := (startLineStartIndex B S).toNat

/-- The expanded region ends at `regionEnd` (as a natural number). -/
def regionEnd (B : JSString) (S : Range) : Nat := (adjustedEndLineEndIndex B S).toNat

/-- C3 as the specification words it, with lines delimited by the newline as in the
line-expansion rule: the region and the text before and after it make up the buffer,
the text before and after is kept, every line of the region gets one unit prepended,
the number of lines of the buffer is unchanged, and the buffer grows by four times the
number of lines of the region. -/
def IndentClaim (B : JSString) (S : Range) : Prop :=
  B = B.take (regionStart B S) ++ selectionText B S ++ B.drop (regionEnd B S) ∧
  (_tabHandler B S false).textContent
    = B.take (regionStart B S)
      ++ ((linesBy isNewline (selectionText B S)).map (fun l => indentUnit ++ l)).flatten
      ++ B.drop (regionEnd B S) ∧
  (linesBy isNewline (_tabHandler B S false).textContent).length
    = (linesBy isNewline B).length ∧
  (_tabHandler B S false).textContent.length
    = B.length + 4 * (linesBy isNewline (selectionText B S)).length

/-- C4 as the specification words it, with lines delimited by the newline: the region
and the text before and after it make up the buffer, the text before and after is kept,
and every line of the region loses its first four spaces when it begins with four
spaces and is unchanged otherwise. -/
def OutdentClaim (B : JSString) (S : Range) : Prop :=
  B = B.take (regionStart B S) ++ selectionText B S ++ B.drop (regionEnd B S) ∧
  (_tabHandler B S true).textContent
    = B.take (regionStart B S)
      ++ ((linesBy isNewline (selectionText B S)).map stripUnit).flatten
      ++ B.drop (regionEnd B S)

/-- The number of spaces a line begins with. -/
def leadingSpaces (l : JSString) : Nat := (l.takeWhile (fun c => c == SP)).length

/-- Every newline-delimited line of the buffer begins with a multiple of 4 spaces. -/
def AllLinesAligned (B : JSString) : Prop :=
  ∀ l ∈ linesBy isNewline B, leadingSpaces l % 4 = 0

instance (B : JSString) : Decidable (AllLinesAligned B) := by
  unfold AllLinesAligned; infer_instance

/-- The selection a later key event reads after a handler has run: the range that
`_setSelection` added, when it added one. -/
def restoredRange (o : Outcome) : Option Range :=
  o.range.map (fun r => ⟨r.1.toNat, r.2.toNat⟩)

/-- Tab, then Shift+Tab on the buffer and the selection that Tab left behind. -/
def indentThenOutdent (B : JSString) (S : Range) : Option Outcome :=
  (restoredRange (_tabHandler B S false)).map
    (fun r => _tabHandler (_tabHandler B S false).textContent r true)

/-- A selection that is valid for a buffer, as integers. -/
def ValidSelection (text : JSString) (start stop : Int) : Prop :=
  0 ≤ start ∧ start ≤ stop ∧ stop ≤ (text.length : Int)

instance (text : JSString) (start stop : Int) : Decidable (ValidSelection text start stop) := by
  unfold ValidSelection; infer_instance

/-! ## Slices at offsets that are natural numbers -/

theorem slice_nat (s : JSString) (a b : Nat) :
    slice s (a : Int) (some (b : Int)) = (s.drop a).take (b - a) := by
  unfold slice
  simp only
  have ha : ¬ ((a : Int) < 0) := by omega
  have hb : ¬ ((b : Int) < 0) := by omega
  rw [if_neg ha, if_neg hb]
  by_cases hal : a ≤ s.length
  · have h1 : (min (a : Int) (s.length : Int)).toNat = a := by omega
    rw [h1]
    by_cases hbl : b ≤ s.length
    · have h2 : (max (min (b : Int) (s.length : Int) - min (a : Int) (s.length : Int)) 0).toNat
          = b - a := by omega
      rw [h2]
    · have h2 : (max (min (b : Int) (s.length : Int) - min (a : Int) (s.length : Int)) 0).toNat
          = s.length - a := by omega
      rw [h2]
      have hlen : (s.drop a).length = s.length - a := by simp
      rw [List.take_of_length_le (by omega), List.take_of_length_le (by omega)]
  · have h1 : (min (a : Int) (s.length : Int)).toNat = s.length := by omega
    rw [h1]
    have e1 : s.drop s.length = [] := List.drop_of_length_le (le_refl _)
    have e2 : s.drop a = [] := List.drop_of_length_le (by omega)
    rw [e1, e2]
    simp

theorem slice_zero_nat (s : JSString) (b : Nat) :
    slice s 0 (some (b : Int)) = s.take b := by
  have h := slice_nat s 0 b
  simpa using h

theorem slice_nat_none (s : JSString) (a : Nat) :
    slice s (a : Int) none = s.drop a := by
  unfold slice
  simp only
  have ha : ¬ ((a : Int) < 0) := by omega
  rw [if_neg ha]
  by_cases hal : a ≤ s.length
  · have h1 : (min (a : Int) (s.length : Int)).toNat = a := by omega
    have h2 : (max ((s.length : Int) - min (a : Int) (s.length : Int)) 0).toNat
        = s.length - a := by omega
    rw [h1, h2]
    exact List.take_of_length_le (by simp)
  · have h1 : (min (a : Int) (s.length : Int)).toNat = s.length := by omega
    rw [h1]
    have e1 : s.drop s.length = [] := List.drop_of_length_le (le_refl _)
    have e2 : s.drop a = [] := List.drop_of_length_le (by omega)
    rw [e1, e2]
    simp

theorem onPaste_textContent (B T : JSString) (S : Range) :
    (_onPaste B S T).textContent = B.take S.startOffset ++ T ++ B.drop S.endOffset := by
  simp only [_onPaste, finish]
  rw [slice_zero_nat, slice_nat_none]

theorem onPaste_selEnd (B T : JSString) (S : Range) (h : InRange B S) :
    (_onPaste B S T).selEnd = (S.startOffset : Int) + (T.length : Int) := by
  obtain ⟨h1, h2⟩ := h
  have hsel : (slice B (S.startOffset : Int) (some (S.endOffset : Int))).length
      = S.endOffset - S.startOffset := by
    rw [slice_nat]; simp; omega
  simp only [_onPaste, finish]
  rw [hsel]; omega

theorem setSelection_of_valid (text : JSString) (a b : Int) (hne : text ≠ [])
    (h0 : 0 ≤ a) (hab : a ≤ b) (hb : b ≤ (text.length : Int)) :
    _setSelection text a b = some (a, b) := by
  unfold _setSelection
  rw [if_neg hne]
  simp only
  rw [if_neg (by omega), if_neg (by omega), if_neg (by omega), if_neg (by omega),
    if_neg (by omega)]

theorem onPaste_range_eq (B T : JSString) (S : Range) :
    (_onPaste B S T).range
      = _setSelection (_onPaste B S T).textContent (_onPaste B S T).selStart
          (_onPaste B S T).selEnd := rfl

/-- For every in-range selection the paste leaves the buffer
`B[0,S.start) ++ T ++ B[S.end,length)` and passes `S.start` and `S.start + length(T)`
to `_setSelection`, which installs exactly that range whenever the new buffer is not
empty. -/
theorem onPaste_general (B T : JSString) (S : Range) (h : InRange B S) :
    (_onPaste B S T).textContent = B.take S.startOffset ++ T ++ B.drop S.endOffset ∧
    (_onPaste B S T).selStart = (S.startOffset : Int) ∧
    (_onPaste B S T).selEnd = (S.startOffset : Int) + (T.length : Int) ∧
    ((_onPaste B S T).textContent ≠ [] →
      (_onPaste B S T).range
        = some ((S.startOffset : Int), (S.startOffset : Int) + (T.length : Int))) ∧
    ((_onPaste B S T).textContent = [] → (_onPaste B S T).range = none) := by
  have e1 := onPaste_textContent B T S
  have e2 : (_onPaste B S T).selStart = (S.startOffset : Int) := rfl
  have e3 := onPaste_selEnd B T S h
  obtain ⟨r1, r2⟩ := h
  refine ⟨e1, e2, e3, ?_, ?_⟩
  · intro hne
    rw [onPaste_range_eq, e2, e3]
    apply setSelection_of_valid _ _ _ hne (by omega) (by omega)
    rw [e1]
    simp only [List.length_append, List.length_take]
    omega
  · intro hnil
    rw [onPaste_range_eq, hnil]
    rfl

/-- C1 on the code: with the buffer `abc` wholly selected and an empty clipboard text,
`_onPaste` sets the buffer to the empty string as claimed, but then the code element
has no child, `_setSelection(codeBlock, 0, 0)` throws on `element.firstChild` being
null, and no selection `(0,0)` is restored. -/
theorem onPaste_empty_result_restores_no_selection :
    InRange (ofString "abc") ⟨0, 3⟩ ∧
    (_onPaste (ofString "abc") ⟨0, 3⟩ (ofString "")).textContent = ofString "" ∧
    (_onPaste (ofString "abc") ⟨0, 3⟩ (ofString "")).selStart = 0 ∧
    (_onPaste (ofString "abc") ⟨0, 3⟩ (ofString "")).selEnd = 0 ∧
    _setSelection (ofString "") 0 0 = none ∧
    (_onPaste (ofString "abc") ⟨0, 3⟩ (ofString "")).range = none ∧
    (_onPaste (ofString "abc") ⟨0, 3⟩ (ofString "")).range ≠ some (0, 0) ∧
    (_onPaste (ofString "hello") ⟨1, 3⟩ (ofString "XY")).textContent = ofString "hXYlo" ∧
    (_onPaste (ofString "hello") ⟨1, 3⟩ (ofString "XY")).range = some (1, 3) := by
  decide

/-! ## validate -/

theorem trim_eq_nil_iff (s : JSString) : trim s = [] ↔ ∀ c ∈ s, isTrimmed c = true := by
  unfold trim
  rw [List.rdropWhile_eq_nil_iff]
  constructor
  · intro h c hc
    by_contra hcon
    have hne : s.dropWhile isTrimmed ≠ [] := by
      intro hnil
      rw [List.dropWhile_eq_nil_iff] at hnil
      exact hcon (hnil c hc)
    have hhead := List.head_dropWhile_not isTrimmed s hne
    have hmem : (s.dropWhile isTrimmed).head hne ∈ s.dropWhile isTrimmed := List.head_mem hne
    have := h _ hmem
    simp [this] at hhead
  · intro h c hc
    exact h c ((List.dropWhile_sublist isTrimmed).subset hc)

/-- C8. For every record whose `code` is a string, `validate` returns false exactly
when `code` is empty or made only of the white-space code points that `trim` strips,
and true otherwise; `validate` of three spaces is false and `validate` of `x` is true. -/
theorem validate_rejects_exactly_blank :
    (∀ code : JSString,
      (validate code = false ↔ (code = [] ∨ ∀ c ∈ code, isTrimmed c = true)) ∧
      (validate code = true ↔ ¬ (code = [] ∨ ∀ c ∈ code, isTrimmed c = true))) ∧
    validate (ofString "   ") = false ∧ validate (ofString "x") = true := by
  have key : ∀ code : JSString,
      validate code = false ↔ (code = [] ∨ ∀ c ∈ code, isTrimmed c = true) := by
    intro code
    have h := trim_eq_nil_iff code
    constructor
    · intro hv
      right
      apply h.1
      simpa [validate] using hv
    · intro hv
      have hall : ∀ c ∈ code, isTrimmed c = true := by
        rcases hv with rfl | hv
        · intro c hc; simp at hc
        · exact hv
      simpa [validate] using h.2 hall
  refine ⟨fun code => ⟨key code, ?_⟩, by decide, by decide⟩
  rw [← key code]
  cases validate code <;> simp

/-! ## Configuration getters -/

theorem LANGUAGES_nodup : LANGUAGES.Nodup := by decide

theorem plaintext_mem_LANGUAGES : DEFAULT_LANGUAGE ∈ LANGUAGES := by decide

theorem empty_not_mem_LANGUAGES : "" ∉ LANGUAGES := by decide

theorem mem_availableLanguages_some (langs : List String) (d : Option String) (l : String) :
    l ∈ availableLanguages ⟨some langs, d⟩ ↔ l ∈ LANGUAGES ∧ l ∈ langs := by
  simp [availableLanguages]

/-- C10. For every list `config.languages`, `availableLanguages` is the sublist of
`Code.LANGUAGES` made of the identifiers that occur in `config.languages`: it keeps the
master order, has no duplicates, and drops identifiers outside the master list (so
`["python","go"]` gives `["python"]`); with `config.languages` absent it is
`Code.LANGUAGES`. -/
theorem availableLanguages_is_master_restriction (langs : List String) (d : Option String) :
    List.Sublist (availableLanguages ⟨some langs, d⟩) LANGUAGES ∧
    (availableLanguages ⟨some langs, d⟩).Nodup ∧
    (∀ l, l ∈ availableLanguages ⟨some langs, d⟩ ↔ (l ∈ LANGUAGES ∧ l ∈ langs)) ∧
    availableLanguages ⟨some langs, d⟩ = LANGUAGES.filter (fun l => decide (l ∈ langs)) ∧
    availableLanguages ⟨some ["python", "go"], d⟩ = ["python"] ∧
    availableLanguages ⟨none, d⟩ = LANGUAGES := by
  have hsub : List.Sublist (availableLanguages ⟨some langs, d⟩) LANGUAGES := by
    simp only [availableLanguages]
    exact List.filter_sublist _
  refine ⟨hsub, hsub.nodup LANGUAGES_nodup, mem_availableLanguages_some langs d, ?_, ?_, rfl⟩
  · simp only [availableLanguages]
    apply List.filter_congr
    intro l _
    simp
  · show LANGUAGES.filter (fun language => ["python", "go"].contains language) = ["python"]
    decide

theorem availableLanguages_subset (config : Config) :
    ∀ l ∈ availableLanguages config, l ∈ LANGUAGES := by
  intro l hl
  unfold availableLanguages at hl
  cases hlang : config.languages with
  | none => rw [hlang] at hl; exact hl
  | some langs =>
    rw [hlang] at hl
    exact (List.mem_filter.1 hl).1

theorem find_defaultLanguage (avail : List String) (d : String) :
    avail.find? (fun language => some language == some d)
      = if d ∈ avail then some d else none := by
  induction avail with
  | nil => simp
  | cons x xs ih =>
    rw [List.find?_cons]
    by_cases hx : x = d
    · subst hx
      simp
    · have hne : (some x == some d) = false := by simpa using hx
      rw [hne, ih]
      have hx2 : ¬ d = x := fun h => hx h.symm
      simp [hx2]

/-- C9. For every configuration, `userDefaultLanguage` is `config.defaultLanguage` when
that identifier belongs to `availableLanguages`, and the fixed `plaintext` otherwise
(unset, unsupported, or excluded by `config.languages`), even when `plaintext` itself
is not in `availableLanguages`. -/
theorem userDefaultLanguage_spec (config : Config) :
    userDefaultLanguage config =
      (match config.defaultLanguage with
       | some d => if d ∈ availableLanguages config then d else "plaintext"
       | none => "plaintext") ∧
    userDefaultLanguage ⟨some ["python"], some "go"⟩ = "plaintext" ∧
    "plaintext" ∉ availableLanguages ⟨some ["python"], some "go"⟩ ∧
    userDefaultLanguage ⟨some ["python"], none⟩ = "plaintext" ∧
    userDefaultLanguage ⟨some ["python"], some "plaintext"⟩ = "plaintext" := by
  refine ⟨?_, by decide, by decide, by decide, by decide⟩
  cases hd : config.defaultLanguage with
  | none => simp [userDefaultLanguage, hd, truthy, DEFAULT_LANGUAGE]
  | some d =>
    have hfind := find_defaultLanguage (availableLanguages config) d
    have hunf : userDefaultLanguage config =
        if truthy (some d) then
          (if truthy ((availableLanguages config).find?
              (fun language => some language == some d))
           then ((availableLanguages config).find?
              (fun language => some language == some d)).getD DEFAULT_LANGUAGE
           else DEFAULT_LANGUAGE)
        else DEFAULT_LANGUAGE := by
      simp only [userDefaultLanguage, hd]
    rw [hunf, hfind]
    by_cases hmem : d ∈ availableLanguages config
    · have hne : d ≠ "" := by
        intro h0
        exact empty_not_mem_LANGUAGES (h0 ▸ availableLanguages_subset config d hmem)
      simp [truthy, hmem, hne]
    · simp [truthy, hmem, DEFAULT_LANGUAGE]

/-! ## The line expansion of `_tabHandler` -/

theorem lastIndexOfFrom_spec (s : JSString) (c : CodeUnit) (k : Nat) :
    -1 ≤ lastIndexOfFrom s c k ∧ lastIndexOfFrom s c k ≤ (k : Int) ∧
    (lastIndexOfFrom s c k = -1 ∨ s[(lastIndexOfFrom s c k).toNat]? = some c) ∧
    ∀ j : Nat, lastIndexOfFrom s c k < (j : Int) → j ≤ k → s[j]? ≠ some c := by
  induction k with
  | zero =>
    unfold lastIndexOfFrom
    by_cases h : s[0]? = some c
    · rw [if_pos h]
      refine ⟨by omega, by omega, Or.inr (by simpa using h), ?_⟩
      intro j h1 h2; omega
    · rw [if_neg h]
      refine ⟨by omega, by omega, Or.inl rfl, ?_⟩
      intro j _ h2
      have : j = 0 := by omega
      subst this; exact h
  | succ k ih =>
    unfold lastIndexOfFrom
    by_cases h : s[k + 1]? = some c
    · rw [if_pos h]
      refine ⟨by omega, by omega, Or.inr (by simpa using h), ?_⟩
      intro j h1 h2; omega
    · rw [if_neg h]
      obtain ⟨i1, i2, i3, i4⟩ := ih
      refine ⟨i1, by omega, i3, ?_⟩
      intro j h1 h2
      by_cases hj : j = k + 1
      · subst hj; exact h
      · exact i4 j h1 (by omega)

theorem indexOfAux_spec (c : CodeUnit) (l : JSString) (k : Nat) :
    (indexOfAux c l k = -1 ∧ ∀ i : Nat, l[i]? ≠ some c) ∨
    ∃ j : Nat, indexOfAux c l k = ((k + j : Nat) : Int) ∧ l[j]? = some c ∧
      ∀ i : Nat, i < j → l[i]? ≠ some c := by
  induction l generalizing k with
  | nil =>
    left
    exact ⟨rfl, by intro i; simp⟩
  | cons x xs ih =>
    unfold indexOfAux
    by_cases h : x = c
    · rw [if_pos h]
      right
      refine ⟨0, by simp, by simp [h], ?_⟩
      intro i hi; omega
    · rw [if_neg h]
      rcases ih (k + 1) with ⟨h1, h2⟩ | ⟨j, h1, h2, h3⟩
      · left
        refine ⟨h1, ?_⟩
        intro i
        cases i with
        | zero => simpa using h
        | succ i => simpa using h2 i
      · right
        refine ⟨j + 1, by rw [h1]; congr 1; omega, by simpa using h2, ?_⟩
        intro i hi
        cases i with
        | zero => simpa using h
        | succ i => simpa using h3 i (by omega)

/-- The start of the expanded region when the caret is not at offset 0 of a buffer that
begins with a newline: a line start at or before the selection start. -/
theorem startLineStartIndex_spec (B : JSString) (S : Range) (hr : InRange B S)
    (hs : ¬ (S.startOffset = 0 ∧ B[0]? = some NL)) :
    ∃ rs : Nat, startLineStartIndex B S = (rs : Int) ∧ rs ≤ S.startOffset ∧
      (rs = 0 ∨ B[rs - 1]? = some NL) ∧
      ∀ j : Nat, rs ≤ j → j < S.startOffset → B[j]? ≠ some NL := by
  obtain ⟨h1, h2⟩ := hr
  unfold startLineStartIndex lastIndexOf
  by_cases hlen : B.length = 0
  · rw [if_pos hlen]
    refine ⟨0, by omega, by omega, Or.inl rfl, ?_⟩
    intro j _ hj; omega
  · rw [if_neg hlen]
    by_cases ha : S.startOffset = 0
    · have hk : min (max ((S.startOffset : Int) - 1) 0).toNat (B.length - 1) = 0 := by omega
      rw [hk]
      have h0 : ¬ B[0]? = some NL := fun h => hs ⟨ha, h⟩
      refine ⟨0, ?_, by omega, Or.inl rfl, ?_⟩
      · unfold lastIndexOfFrom
        rw [if_neg h0]; rfl
      · intro j _ hj; omega
    · have hk : min (max ((S.startOffset : Int) - 1) 0).toNat (B.length - 1)
          = S.startOffset - 1 := by omega
      rw [hk]
      obtain ⟨i1, i2, i3, i4⟩ := lastIndexOfFrom_spec B NL (S.startOffset - 1)
      refine ⟨(lastIndexOfFrom B NL (S.startOffset - 1) + 1).toNat, by omega, by omega, ?_, ?_⟩
      · rcases i3 with h | h
        · left; omega
        · by_cases hm : lastIndexOfFrom B NL (S.startOffset - 1) = -1
          · left; omega
          · right
            have : (lastIndexOfFrom B NL (S.startOffset - 1) + 1).toNat - 1
                = (lastIndexOfFrom B NL (S.startOffset - 1)).toNat := by omega
            rw [this]; exact h
      · intro j hj1 hj2
        exact i4 j (by omega) (by omega)

/-- The end of the expanded region: the first newline at or after the selection end,
or the end of the buffer. -/
theorem adjustedEndLineEndIndex_spec (B : JSString) (S : Range) (hr : InRange B S) :
    ∃ re : Nat, adjustedEndLineEndIndex B S = (re : Int) ∧ S.endOffset ≤ re ∧
      re ≤ B.length ∧ (re = B.length ∨ B[re]? = some NL) ∧
      ∀ j : Nat, S.endOffset ≤ j → j < re → B[j]? ≠ some NL := by
  obtain ⟨h1, h2⟩ := hr
  unfold adjustedEndLineEndIndex endLineEndIndex indexOf
  have hk : min (max (S.endOffset : Int) 0).toNat B.length = S.endOffset := by omega
  simp only [hk]
  rcases indexOfAux_spec NL (B.drop S.endOffset) S.endOffset with ⟨e1, e2⟩ | ⟨j, e1, e2, e3⟩
  · rw [if_pos e1]
    refine ⟨B.length, rfl, h2, le_refl _, Or.inl rfl, ?_⟩
    intro j hj1 hj2
    have := e2 (j - S.endOffset)
    rw [List.getElem?_drop] at this
    have hj : S.endOffset + (j - S.endOffset) = j := by omega
    rwa [hj] at this
  · have hne : ¬ indexOfAux NL (B.drop S.endOffset) S.endOffset = -1 := by rw [e1]; omega
    rw [if_neg hne, e1]
    rw [List.getElem?_drop] at e2
    have hlt : S.endOffset + j < B.length := by
      by_contra hcon
      rw [List.getElem?_eq_none (by omega)] at e2
      exact absurd e2 (by simp)
    refine ⟨S.endOffset + j, rfl, by omega, by omega, Or.inr e2, ?_⟩
    intro i hi1 hi2
    have := e3 (i - S.endOffset) (by omega)
    rw [List.getElem?_drop] at this
    have hi : S.endOffset + (i - S.endOffset) = i := by omega
    rwa [hi] at this

/-! ## Lines -/

theorem linesBy_ne_nil (term : CodeUnit → Bool) (t : JSString) :
    ∃ l rest, linesBy term t = l :: rest := by
  cases t with
  | nil => exact ⟨[], [], rfl⟩
  | cons c cs =>
    unfold linesBy
    by_cases h : term c = true
    · rw [if_pos h]; exact ⟨_, _, rfl⟩
    · rw [if_neg h]
      cases linesBy term cs with
      | nil => exact ⟨_, _, rfl⟩
      | cons l ls => exact ⟨_, _, rfl⟩

theorem linesBy_cons_term (term : CodeUnit → Bool) (c : CodeUnit) (cs : JSString)
    (h : term c = true) : linesBy term (c :: cs) = [c] :: linesBy term cs := by
  rw [linesBy, if_pos h]

theorem linesBy_cons_not (term : CodeUnit → Bool) (c : CodeUnit) (cs l : JSString)
    (rest : List JSString) (h : ¬ term c = true) (hl : linesBy term cs = l :: rest) :
    linesBy term (c :: cs) = (c :: l) :: rest := by
  rw [linesBy, if_neg h, hl]

theorem flatten_linesBy (term : CodeUnit → Bool) (t : JSString) :
    (linesBy term t).flatten = t := by
  induction t with
  | nil => simp [linesBy]
  | cons c cs ih =>
    by_cases h : term c = true
    · rw [linesBy_cons_term term c cs h]
      simp [ih]
    · obtain ⟨l, rest, hl⟩ := linesBy_ne_nil term cs
      rw [linesBy_cons_not term c cs l rest h hl]
      rw [hl] at ih
      simp at ih
      simp [ih]

theorem linesBy_congr (p q : CodeUnit → Bool) (t : JSString)
    (h : ∀ c ∈ t, p c = q c) : linesBy p t = linesBy q t := by
  induction t with
  | nil => rfl
  | cons c cs ih =>
    have hc : p c = q c := h c (List.mem_cons_self _ _)
    have ih2 := ih (fun x hx => h x (List.mem_cons_of_mem _ hx))
    unfold linesBy
    rw [hc, ih2]

theorem length_linesBy (term : CodeUnit → Bool) (t : JSString) :
    (linesBy term t).length = (t.filter term).length + 1 := by
  induction t with
  | nil => simp [linesBy]
  | cons c cs ih =>
    by_cases h : term c = true
    · rw [linesBy_cons_term term c cs h]
      simp [h, ih]
    · obtain ⟨l, rest, hl⟩ := linesBy_ne_nil term cs
      rw [linesBy_cons_not term c cs l rest h hl]
      rw [hl] at ih
      simp [h] at ih ⊢
      exact ih

theorem mapLinesFrom_true (f : JSString → JSString) (t : JSString) :
    mapLinesFrom f true t = ((linesBy isLineTerminator t).map f).flatten := by
  obtain ⟨l, rest, hl⟩ := linesBy_ne_nil isLineTerminator t
  simp [mapLinesFrom, hl]

theorem mapLinesFrom_nil_false (f : JSString → JSString) : mapLinesFrom f false [] = [] := by
  simp [mapLinesFrom, linesBy]

theorem mapLinesFrom_cons_false (f : JSString → JSString) (c : CodeUnit) (t : JSString) :
    mapLinesFrom f false (c :: t) = c :: mapLinesFrom f (isLineTerminator c) t := by
  obtain ⟨l, rest, hl⟩ := linesBy_ne_nil isLineTerminator t
  by_cases h : isLineTerminator c = true
  · simp [mapLinesFrom, linesBy_cons_term isLineTerminator c t h, hl, h]
  · simp [mapLinesFrom, linesBy_cons_not isLineTerminator c t l rest h hl, hl, h]

/-! ## The two replacements of `_tabHandler` -/

theorem replaceAllLoop_past_end (m : Matcher) (rep s : JSString) (fuel i : Nat)
    (h : s.length < i) : replaceAllLoop m rep s fuel i = [] := by
  cases fuel with
  | zero => rfl
  | succ fuel => rw [replaceAllLoop, if_pos h]

theorem atLineStart_succ (s : JSString) (i : Nat) (c : CodeUnit) (t : JSString)
    (h : s.drop i = c :: t) : atLineStart s (i + 1) = isLineTerminator c := by
  have hc : s[i]? = some c := by
    have := congrArg (fun l => l[0]?) h
    simpa [List.getElem?_drop] using this
  simp [atLineStart, hc]

theorem drop_succ_of_drop (s : JSString) (i : Nat) (c : CodeUnit) (t : JSString)
    (h : s.drop i = c :: t) : s.drop (i + 1) = t := by
  have : s.drop (i + 1) = (s.drop i).drop 1 := by
    rw [List.drop_drop, Nat.add_comm]
  rw [this, h]
  rfl

theorem drop_lt_of_cons (s : JSString) (i : Nat) (c : CodeUnit) (t : JSString)
    (h : s.drop i = c :: t) : i < s.length := by
  by_contra hcon
  rw [List.drop_of_length_le (by omega)] at h
  exact absurd h (by simp)

theorem mapLinesFrom_indent_cons (ls : Bool) (c : CodeUnit) (t : JSString) :
    mapLinesFrom (fun l => indentUnit ++ l) ls (c :: t)
      = (if ls then indentUnit else []) ++
        c :: mapLinesFrom (fun l => indentUnit ++ l) (isLineTerminator c) t := by
  obtain ⟨l, rest, hl⟩ := linesBy_ne_nil isLineTerminator t
  by_cases h : isLineTerminator c = true
  · cases ls <;>
      simp [mapLinesFrom, linesBy_cons_term isLineTerminator c t h, hl, h]
  · cases ls <;>
      simp [mapLinesFrom, linesBy_cons_not isLineTerminator c t l rest h hl, hl, h]

theorem mapLinesFrom_indent_nil (ls : Bool) :
    mapLinesFrom (fun l => indentUnit ++ l) ls [] = (if ls then indentUnit else []) := by
  cases ls <;> simp [mapLinesFrom, linesBy]

theorem matchLineStart_apply (s : JSString) (i : Nat) :
    matchLineStart s i = if atLineStart s i then some i else none := rfl

theorem replaceAllLoop_indent (s : JSString) (fuel i : Nat) (hi : i ≤ s.length)
    (hf : s.length + 2 ≤ fuel + i) :
    replaceAllLoop matchLineStart indentUnit s fuel i
      = mapLinesFrom (fun l => indentUnit ++ l) (atLineStart s i) (s.drop i) := by
  induction fuel generalizing i with
  | zero => omega
  | succ fuel ih =>
    rw [replaceAllLoop, if_neg (by omega)]
    cases hd : s.drop i with
    | nil =>
      have hlen : s.length ≤ i := by
        by_contra hcon
        have := List.length_drop i s
        rw [hd] at this
        simp at this
        omega
      rw [mapLinesFrom_indent_nil, matchLineStart_apply]
      cases hls : atLineStart s i
      · simp [replaceAllLoop_past_end matchLineStart indentUnit s fuel (i + 1) (by omega)]
      · simp [replaceAllLoop_past_end matchLineStart indentUnit s fuel (i + 1) (by omega)]
    | cons c t =>
      have hlt := drop_lt_of_cons s i c t hd
      have hstep := ih (i + 1) (by omega) (by omega)
      rw [atLineStart_succ s i c t hd, drop_succ_of_drop s i c t hd] at hstep
      rw [mapLinesFrom_indent_cons, matchLineStart_apply]
      cases hls : atLineStart s i
      · simp [hstep]
      · simp [hstep]

/-- The replacement `/^/gm → indentUnit` puts one unit in front of every line, where a
line ends at any `LineTerminator`. -/
theorem replaceAll_indent (R : JSString) :
    replaceAll matchLineStart indentUnit R
      = ((linesBy isLineTerminator R).map (fun l => indentUnit ++ l)).flatten := by
  unfold replaceAll
  rw [replaceAllLoop_indent R (R.length + 2) 0 (by omega) (by omega)]
  simp [atLineStart, mapLinesFrom_true]

theorem matchLineStartSpaces4_apply (s : JSString) (i : Nat) :
    matchLineStartSpaces4 s i
      = if atLineStart s i && (s.drop i).take 4 == [SP, SP, SP, SP] then some (i + 4)
        else none := rfl

theorem stripUnit_nil : stripUnit [] = [] := by decide

theorem stripUnit_unit_append (l : JSString) : stripUnit (indentUnit ++ l) = l := by
  simp [stripUnit, indentUnit]

theorem linesBy_unit_append (t l : JSString) (rest : List JSString)
    (hl : linesBy isLineTerminator t = l :: rest) :
    linesBy isLineTerminator (indentUnit ++ t) = (indentUnit ++ l) :: rest := by
  have hsp : ¬ isLineTerminator SP = true := by decide
  have h1 := linesBy_cons_not isLineTerminator SP t l rest hsp hl
  have h2 := linesBy_cons_not isLineTerminator SP _ _ rest hsp h1
  have h3 := linesBy_cons_not isLineTerminator SP _ _ rest hsp h2
  have h4 := linesBy_cons_not isLineTerminator SP _ _ rest hsp h3
  exact h4

theorem mapLinesFrom_strip_unit_append (t : JSString) :
    mapLinesFrom stripUnit true (indentUnit ++ t) = mapLinesFrom stripUnit false t := by
  obtain ⟨l, rest, hl⟩ := linesBy_ne_nil isLineTerminator t
  simp only [mapLinesFrom, linesBy_unit_append t l rest hl, hl, if_true, stripUnit_unit_append]
  simp

theorem mapLinesFrom_strip_nil (ls : Bool) : mapLinesFrom stripUnit ls [] = [] := by
  cases ls <;> simp [mapLinesFrom, linesBy, stripUnit_nil]

theorem mapLinesFrom_strip_cons (c : CodeUnit) (t : JSString)
    (h : (c :: t).take 4 ≠ indentUnit) :
    mapLinesFrom stripUnit true (c :: t) = c :: mapLinesFrom stripUnit (isLineTerminator c) t := by
  obtain ⟨l, rest, hl⟩ := linesBy_ne_nil isLineTerminator t
  by_cases hc : isLineTerminator c = true
  · have h1 : stripUnit [c] = [c] := by
      unfold stripUnit
      rw [if_neg]
      intro hcon
      have := congrArg List.length hcon
      simp [indentUnit] at this
    simp [mapLinesFrom, linesBy_cons_term isLineTerminator c t hc, hl, hc, h1]
  · have ht : t = l ++ rest.flatten := by
      have := flatten_linesBy isLineTerminator t
      rw [hl] at this
      simpa using this.symm
    have h1 : stripUnit (c :: l) = c :: l := by
      unfold stripUnit
      rw [if_neg]
      intro hcon
      apply h
      have hlen : 4 ≤ (c :: l).length := by
        have := congrArg List.length hcon
        simp [indentUnit] at this
        simp
        omega
      rw [ht, ← List.cons_append, List.take_append_of_le_length hlen]
      exact hcon
    simp [mapLinesFrom, linesBy_cons_not isLineTerminator c t l rest hc hl, hl, hc, h1]

theorem replaceAllLoop_outdent (s : JSString) (fuel i : Nat) (hi : i ≤ s.length)
    (hf : s.length + 2 ≤ fuel + i) :
    replaceAllLoop matchLineStartSpaces4 [] s fuel i
      = mapLinesFrom stripUnit (atLineStart s i) (s.drop i) := by
  induction fuel generalizing i with
  | zero => omega
  | succ fuel ih =>
    rw [replaceAllLoop, if_neg (by omega), matchLineStartSpaces4_apply]
    by_cases hm : (atLineStart s i && (s.drop i).take 4 == [SP, SP, SP, SP]) = true
    · rw [if_pos hm]
      simp only
      rw [if_neg (by omega)]
      simp only [Bool.and_eq_true, beq_iff_eq] at hm
      obtain ⟨hls, htake⟩ := hm
      have hsplit : s.drop i = indentUnit ++ s.drop (i + 4) := by
        have := List.take_append_drop 4 (s.drop i)
        rw [htake, List.drop_drop] at this
        rw [← this]
        rfl
      have hlen : i + 4 ≤ s.length := by
        have := congrArg List.length htake
        simp at this
        omega
      have d1 := drop_succ_of_drop s i SP _ hsplit
      have d2 := drop_succ_of_drop s (i + 1) SP _ d1
      have d3 := drop_succ_of_drop s (i + 2) SP _ d2
      have hnot : atLineStart s (i + 3 + 1) = false := by
        rw [atLineStart_succ s (i + 3) SP _ d3]
        decide
      have hstep := ih (i + 4) hlen (by omega)
      rw [show i + 4 = i + 3 + 1 from rfl, hnot] at hstep
      rw [show i + 4 = i + 3 + 1 from rfl, hstep, hls, hsplit,
        mapLinesFrom_strip_unit_append]
      simp
    · rw [if_neg hm]
      simp only
      cases hd : s.drop i with
      | nil =>
        have hlen : s.length ≤ i := by
          by_contra hcon
          have := List.length_drop i s
          rw [hd] at this
          simp at this
          omega
        rw [mapLinesFrom_strip_nil,
          replaceAllLoop_past_end matchLineStartSpaces4 [] s fuel (i + 1) (by omega)]
        simp
      | cons c t =>
        have hlt := drop_lt_of_cons s i c t hd
        have hstep := ih (i + 1) (by omega) (by omega)
        rw [atLineStart_succ s i c t hd, drop_succ_of_drop s i c t hd] at hstep
        rw [hstep]
        cases hls : atLineStart s i
        · rw [mapLinesFrom_cons_false]
          simp
        · have hne : (c :: t).take 4 ≠ indentUnit := by
            intro hcon
            apply hm
            rw [hls, hd, hcon]
            decide
          rw [mapLinesFrom_strip_cons c t hne]
          simp

/-- The replacement `/^ {4}/gm → ''` strips one unit from every line that begins with
one, where a line ends at any `LineTerminator`. -/
theorem replaceAll_outdent (R : JSString) :
    replaceAll matchLineStartSpaces4 [] R
      = ((linesBy isLineTerminator R).map stripUnit).flatten := by
  unfold replaceAll
  rw [replaceAllLoop_outdent R (R.length + 2) 0 (by omega) (by omega)]
  simp [atLineStart, mapLinesFrom_true]

/-! ## The shape of the result of `_tabHandler` -/

/-- Away from the caret-at-0-before-a-newline case, the three slices of `_tabHandler`
partition the buffer around the selection, and the handler replaces the middle one. -/
theorem tabHandler_shape (B : JSString) (S : Range) (shiftKey : Bool) (hr : InRange B S)
    (hs : ¬ (S.startOffset = 0 ∧ B[0]? = some NL)) :
    startLineStartIndex B S = (regionStart B S : Int) ∧
    adjustedEndLineEndIndex B S = (regionEnd B S : Int) ∧
    regionStart B S ≤ S.startOffset ∧ S.endOffset ≤ regionEnd B S ∧
    regionEnd B S ≤ B.length ∧
    selectionText B S = (B.drop (regionStart B S)).take (regionEnd B S - regionStart B S) ∧
    B = B.take (regionStart B S) ++ selectionText B S ++ B.drop (regionEnd B S) ∧
    (_tabHandler B S shiftKey).textContent
      = B.take (regionStart B S) ++ newSelectionText (selectionText B S) shiftKey
        ++ B.drop (regionEnd B S) ∧
    (_tabHandler B S shiftKey).selStart = (regionStart B S : Int) ∧
    (_tabHandler B S shiftKey).selEnd
      = (regionStart B S : Int) + ((newSelectionText (selectionText B S) shiftKey).length : Int) := by
  obtain ⟨rs, hrs, hrs1, -, -⟩ := startLineStartIndex_spec B S hr hs
  obtain ⟨re, hre, hre1, hre2, -, -⟩ := adjustedEndLineEndIndex_spec B S hr
  have hle := hr.1
  have e1 : regionStart B S = rs := by unfold regionStart; rw [hrs]; rfl
  have e2 : regionEnd B S = re := by unfold regionEnd; rw [hre]; rfl
  have hsel : selectionText B S = (B.drop rs).take (re - rs) := by
    unfold selectionText
    rw [hrs, hre, slice_nat]
  have hsellen : (selectionText B S).length = re - rs := by
    rw [hsel]; simp; omega
  have hpart : B = B.take rs ++ selectionText B S ++ B.drop re := by
    rw [hsel, List.append_assoc]
    have h1 : (B.drop rs).take (re - rs) ++ B.drop re = B.drop rs := by
      have := List.take_append_drop (re - rs) (B.drop rs)
      rw [List.drop_drop] at this
      have h2 : rs + (re - rs) = re := by omega
      rw [h2] at this
      exact this
    rw [h1, List.take_append_drop]
  have htext : (_tabHandler B S shiftKey).textContent
      = B.take rs ++ newSelectionText (selectionText B S) shiftKey ++ B.drop re := by
    simp only [_tabHandler, finish]
    rw [hrs, hre, slice_zero_nat, slice_nat_none]
  have hstart : (_tabHandler B S shiftKey).selStart = (rs : Int) := by
    simp only [_tabHandler, finish]
    exact hrs
  have hend : (_tabHandler B S shiftKey).selEnd
      = (rs : Int) + ((newSelectionText (selectionText B S) shiftKey).length : Int) := by
    simp only [_tabHandler, finish]
    rw [hre, hsellen]
    omega
  rw [e1, e2]
  exact ⟨hrs, hre, hrs1, hre1, hre2, hsel, hpart, htext, hstart, hend⟩

/-! ## Indent -/

theorem length_flatten_map_indent (L : List JSString) :
    ((L.map (fun l => indentUnit ++ l)).flatten).length = L.flatten.length + 4 * L.length := by
  induction L with
  | nil => rfl
  | cons l L ih =>
    simp only [List.map_cons, List.flatten_cons, List.length_append, List.length_cons, ih]
    simp [indentUnit]
    omega

theorem filter_flatten_map_indent (L : List JSString) :
    ((L.map (fun l => indentUnit ++ l)).flatten).filter isNewline
      = L.flatten.filter isNewline := by
  induction L with
  | nil => rfl
  | cons l L ih =>
    simp only [List.map_cons, List.flatten_cons, List.filter_append, ih]
    have : indentUnit.filter isNewline = [] := by decide
    rw [this]
    rfl

theorem linesBy_newline_of_no_other (R : JSString)
    (h : ∀ c ∈ R, isLineTerminator c = true → c = NL) :
    linesBy isLineTerminator R = linesBy isNewline R := by
  apply linesBy_congr
  intro c hc
  by_cases hlt : isLineTerminator c = true
  · have := h c hc hlt
    subst this
    decide
  · have hn : ¬ isNewline c = true := by
      intro hcon
      apply hlt
      have : c = NL := by simpa [isNewline] using hcon
      subst this
      decide
    simp only [Bool.not_eq_true] at hlt hn
    rw [hlt, hn]

/-- C3, as amended. For every buffer and in-range selection, except a caret at offset 0
of a buffer that begins with a newline, Indent keeps the text before and after the
expanded region and puts one 4-space unit at the region start and after every line
terminator of the region (LF, CR, U+2028, U+2029), so the buffer grows by four times the
number of such lines and its number of newline-delimited lines is unchanged; when the
region holds no CR, U+2028 or U+2029 this is the claim as worded for newline-delimited
lines. -/
theorem tabHandler_indent_lines (B : JSString) (S : Range) (hr : InRange B S)
    (hs : ¬ (S.startOffset = 0 ∧ B[0]? = some NL)) :
    B = B.take (regionStart B S) ++ selectionText B S ++ B.drop (regionEnd B S) ∧
    (_tabHandler B S false).textContent
      = B.take (regionStart B S)
        ++ ((linesBy isLineTerminator (selectionText B S)).map
              (fun l => indentUnit ++ l)).flatten
        ++ B.drop (regionEnd B S) ∧
    (_tabHandler B S false).textContent.length
      = B.length + 4 * (linesBy isLineTerminator (selectionText B S)).length ∧
    (linesBy isNewline (_tabHandler B S false).textContent).length
      = (linesBy isNewline B).length ∧
    ((∀ c ∈ selectionText B S, isLineTerminator c = true → c = NL) → IndentClaim B S) := by
  obtain ⟨-, -, -, -, -, -, hpart, htext, -, -⟩ := tabHandler_shape B S false hr hs
  have hnew : newSelectionText (selectionText B S) false
      = ((linesBy isLineTerminator (selectionText B S)).map
          (fun l => indentUnit ++ l)).flatten := by
    unfold newSelectionText
    simp only [Bool.false_eq_true, if_false]
    exact replaceAll_indent _
  rw [hnew] at htext
  have hlen : (_tabHandler B S false).textContent.length
      = B.length + 4 * (linesBy isLineTerminator (selectionText B S)).length := by
    have hB := congrArg List.length hpart
    simp only [List.length_append] at hB
    rw [htext]
    simp only [List.length_append, length_flatten_map_indent, flatten_linesBy]
    omega
  have hcount : (linesBy isNewline (_tabHandler B S false).textContent).length
      = (linesBy isNewline B).length := by
    have hB := congrArg (fun l => (l.filter isNewline).length) hpart
    simp only [List.filter_append, List.length_append] at hB
    rw [length_linesBy, length_linesBy, htext]
    simp only [List.filter_append, filter_flatten_map_indent, flatten_linesBy,
      List.length_append]
    omega
  refine ⟨hpart, htext, hlen, hcount, ?_⟩
  intro hno
  have hlines := linesBy_newline_of_no_other _ hno
  unfold IndentClaim
  rw [← hlines]
  exact ⟨hpart, htext, hcount, hlen⟩

/-- Witness of the amended C3 on the buffer `ab⏎cd⏎` with the selection `(1,4)`. -/
theorem tabHandler_indent_lines_witness :
    InRange (ofString "ab\ncd\n") ⟨1, 4⟩ ∧
    ¬ ((1 : Nat) = 0 ∧ (ofString "ab\ncd\n")[0]? = some NL) ∧
    (∀ c ∈ selectionText (ofString "ab\ncd\n") ⟨1, 4⟩, isLineTerminator c = true → c = NL) ∧
    (_tabHandler (ofString "ab\ncd\n") ⟨1, 4⟩ false).textContent.length
      = (ofString "ab\ncd\n").length
        + 4 * (linesBy isLineTerminator (selectionText (ofString "ab\ncd\n") ⟨1, 4⟩)).length ∧
    IndentClaim (ofString "ab\ncd\n") ⟨1, 4⟩ :=
  ⟨by decide, by decide, by decide,
    (tabHandler_indent_lines (ofString "ab\ncd\n") ⟨1, 4⟩ (by decide) (by decide)).2.2.1,
    (tabHandler_indent_lines (ofString "ab\ncd\n") ⟨1, 4⟩ (by decide) (by decide)).2.2.2.2
      (by decide)⟩

/-- C3 fails as worded. In the buffer `a`, CR, `b` with the caret at 0 the region is the
one newline-delimited line `a CR b`, yet Indent inserts two units (one after the CR),
so the buffer grows by 8 and not by 4.  In the buffer `⏎abc` with the caret at 0 the
slices overlap and the buffer grows by 5. -/
theorem tabHandler_indent_counterexample :
    (InRange (ofString "a\rb") ⟨0, 0⟩ ∧
     (linesBy isNewline (selectionText (ofString "a\rb") ⟨0, 0⟩)).length = 1 ∧
     (_tabHandler (ofString "a\rb") ⟨0, 0⟩ false).textContent = ofString "    a\r    b" ∧
     ¬ IndentClaim (ofString "a\rb") ⟨0, 0⟩) ∧
    (InRange (ofString "\nabc") ⟨0, 0⟩ ∧
     (_tabHandler (ofString "\nabc") ⟨0, 0⟩ false).textContent = ofString "\n    \nabc" ∧
     ¬ IndentClaim (ofString "\nabc") ⟨0, 0⟩) := by
  refine ⟨⟨by decide, by decide, by decide, ?_⟩, ⟨by decide, by decide, ?_⟩⟩
  · unfold IndentClaim
    decide
  · unfold IndentClaim
    decide

/-! ## Outdent -/

/-- C4, as amended. For every buffer and in-range selection, except a caret at offset 0
of a buffer that begins with a newline, Outdent keeps the text before and after the
expanded region, and in the region removes exactly the first four spaces of every line
that begins with four spaces and leaves every other line unchanged, where a line ends at
any line terminator (LF, CR, U+2028, U+2029); when the region holds no CR, U+2028 or
U+2029 this is the claim as worded for newline-delimited lines.  The buffer of four
spaces, `x`, newline, `y`, newline with the caret at 0 becomes `x`, newline, `y`,
newline. -/
theorem tabHandler_outdent_lines (B : JSString) (S : Range) (hr : InRange B S)
    (hs : ¬ (S.startOffset = 0 ∧ B[0]? = some NL)) :
    B = B.take (regionStart B S) ++ selectionText B S ++ B.drop (regionEnd B S) ∧
    (_tabHandler B S true).textContent
      = B.take (regionStart B S)
        ++ ((linesBy isLineTerminator (selectionText B S)).map stripUnit).flatten
        ++ B.drop (regionEnd B S) ∧
    ((∀ c ∈ selectionText B S, isLineTerminator c = true → c = NL) → OutdentClaim B S) ∧
    (_tabHandler (ofString "    x\ny\n") ⟨0, 0⟩ true).textContent = ofString "x\ny\n" := by
  obtain ⟨-, -, -, -, -, -, hpart, htext, -, -⟩ := tabHandler_shape B S true hr hs
  have hnew : newSelectionText (selectionText B S) true
      = ((linesBy isLineTerminator (selectionText B S)).map stripUnit).flatten := by
    unfold newSelectionText
    simp only [if_true]
    exact replaceAll_outdent _
  rw [hnew] at htext
  refine ⟨hpart, htext, ?_, by decide⟩
  intro hno
  have hlines := linesBy_newline_of_no_other _ hno
  unfold OutdentClaim
  rw [← hlines]
  exact ⟨hpart, htext⟩

/-- Witness of the amended C4 on the example buffer of the specification. -/
theorem tabHandler_outdent_lines_witness :
    InRange (ofString "    x\ny\n") ⟨0, 0⟩ ∧
    ¬ ((0 : Nat) = 0 ∧ (ofString "    x\ny\n")[0]? = some NL) ∧
    (∀ c ∈ selectionText (ofString "    x\ny\n") ⟨0, 0⟩, isLineTerminator c = true → c = NL) ∧
    OutdentClaim (ofString "    x\ny\n") ⟨0, 0⟩ :=
  ⟨by decide, by decide, by decide,
    (tabHandler_outdent_lines (ofString "    x\ny\n") ⟨0, 0⟩ (by decide) (by decide)).2.2.1
      (by decide)⟩

/-- C4 fails as worded. In the buffer `a`, CR, four spaces, `b` with the caret at 0 the
region is one newline-delimited line that begins with `a`, not with four spaces, yet
Outdent removes the four spaces after the CR.  In the buffer `⏎abc` with the caret
at 0 the slices overlap and Outdent adds a newline. -/
theorem tabHandler_outdent_counterexample :
    (InRange (ofString "a\r    b") ⟨0, 0⟩ ∧
     linesBy isNewline (selectionText (ofString "a\r    b") ⟨0, 0⟩)
       = [ofString "a\r    b"] ∧
     (_tabHandler (ofString "a\r    b") ⟨0, 0⟩ true).textContent = ofString "a\rb" ∧
     ¬ OutdentClaim (ofString "a\r    b") ⟨0, 0⟩) ∧
    (InRange (ofString "\nabc") ⟨0, 0⟩ ∧
     (_tabHandler (ofString "\nabc") ⟨0, 0⟩ true).textContent = ofString "\n\nabc" ∧
     ¬ OutdentClaim (ofString "\nabc") ⟨0, 0⟩) := by
  refine ⟨⟨by decide, by decide, by decide, ?_⟩, ⟨by decide, by decide, ?_⟩⟩
  · unfold OutdentClaim
    decide
  · unfold OutdentClaim
    decide

/-! ## The examples of the specification and the caret at offset 0 before a newline -/

/-- C5 fails as worded: for the buffer `ab⏎cd⏎` and the selection `(1,4)` the handler
does not take the whole buffer as region and does not restore the selection `(0,14)`. -/
theorem tabHandler_example_counterexample :
    ¬ (selectionText (ofString "ab\ncd\n") ⟨1, 4⟩ = ofString "ab\ncd\n" ∧
       (_tabHandler (ofString "ab\ncd\n") ⟨1, 4⟩ false).textContent
         = ofString "    ab\n    cd\n" ∧
       (_tabHandler (ofString "ab\ncd\n") ⟨1, 4⟩ false).range = some (0, 14)) := by
  decide

/-- C5, as amended. For the buffer `ab⏎cd⏎` and the selection `(1,4)`, Indent expands
the region to `ab⏎cd` (offsets 0 to 5, without the final newline), produces the buffer
`    ab⏎    cd⏎` and restores the selection `(0,13)`. -/
theorem tabHandler_example :
    regionStart (ofString "ab\ncd\n") ⟨1, 4⟩ = 0 ∧
    regionEnd (ofString "ab\ncd\n") ⟨1, 4⟩ = 5 ∧
    selectionText (ofString "ab\ncd\n") ⟨1, 4⟩ = ofString "ab\ncd" ∧
    (_tabHandler (ofString "ab\ncd\n") ⟨1, 4⟩ false).textContent
      = ofString "    ab\n    cd\n" ∧
    (_tabHandler (ofString "ab\ncd\n") ⟨1, 4⟩ false).selStart = 0 ∧
    (_tabHandler (ofString "ab\ncd\n") ⟨1, 4⟩ false).selEnd = 13 ∧
    (_tabHandler (ofString "ab\ncd\n") ⟨1, 4⟩ false).range = some (0, 13) := by
  decide

/-- C2 on the code: in the buffer `⏎abc` with the caret at offset 0, `lastIndexOf` is
called with position `-1`, which it clamps to 0, so it finds the newline at index 0 and
the region starts at 1, after the caret, and ends at 0; the slices overlap and Tab
leaves `⏎    ⏎abc`. -/
theorem tabHandler_region_starts_after_caret :
    InRange (ofString "\nabc") ⟨0, 0⟩ ∧
    lastIndexOf (ofString "\nabc") NL (-1) = 0 ∧
    startLineStartIndex (ofString "\nabc") ⟨0, 0⟩ = 1 ∧
    ¬ (startLineStartIndex (ofString "\nabc") ⟨0, 0⟩ ≤ 0) ∧
    adjustedEndLineEndIndex (ofString "\nabc") ⟨0, 0⟩ = 0 ∧
    slice (ofString "\nabc") 0 (some 1) = ofString "\n" ∧
    selectionText (ofString "\nabc") ⟨0, 0⟩ = [] ∧
    slice (ofString "\nabc") 0 none = ofString "\nabc" ∧
    (_tabHandler (ofString "\nabc") ⟨0, 0⟩ false).textContent = ofString "\n    \nabc" := by
  decide

/-- C7 on the code: in the buffer `⏎abc` with the caret at offset 0, Shift+Tab passes
start 1 and end 0 to `_setSelection`, which is not a valid selection. -/
theorem tabHandler_outdent_passes_inverted_selection :
    InRange (ofString "\nabc") ⟨0, 0⟩ ∧
    (_tabHandler (ofString "\nabc") ⟨0, 0⟩ true).textContent = ofString "\n\nabc" ∧
    (_tabHandler (ofString "\nabc") ⟨0, 0⟩ true).selStart = 1 ∧
    (_tabHandler (ofString "\nabc") ⟨0, 0⟩ true).selEnd = 0 ∧
    ¬ ValidSelection (_tabHandler (ofString "\nabc") ⟨0, 0⟩ true).textContent
        (_tabHandler (ofString "\nabc") ⟨0, 0⟩ true).selStart
        (_tabHandler (ofString "\nabc") ⟨0, 0⟩ true).selEnd := by
  decide

/-- C6 on the code: the buffer `⏎abc` has only lines with 0 leading spaces, and with the
caret at offset 0 Tab leaves `⏎    ⏎abc` with the selection `(1,4)`, after which
Shift+Tab leaves `⏎⏎abc`, not the original buffer. -/
theorem indentThenOutdent_adds_newline :
    InRange (ofString "\nabc") ⟨0, 0⟩ ∧
    AllLinesAligned (ofString "\nabc") ∧
    (_tabHandler (ofString "\nabc") ⟨0, 0⟩ false).textContent = ofString "\n    \nabc" ∧
    restoredRange (_tabHandler (ofString "\nabc") ⟨0, 0⟩ false) = some ⟨1, 4⟩ ∧
    (indentThenOutdent (ofString "\nabc") ⟨0, 0⟩).map Outcome.textContent
      = some (ofString "\n\nabc") ∧
    (indentThenOutdent (ofString "\nabc") ⟨0, 0⟩).map Outcome.textContent
      ≠ some (ofString "\nabc") := by
  decide

/-! ## What holds away from the caret at offset 0 before a newline -/

/-- The line-expansion rule holds whenever the selection does not start at offset 0 of
a buffer that begins with a newline. -/
theorem region_bounds (B : JSString) (S : Range) (hr : InRange B S)
    (hs : ¬ (S.startOffset = 0 ∧ B[0]? = some NL)) :
    regionStart B S ≤ S.startOffset ∧
    (regionStart B S = 0 ∨ B[regionStart B S - 1]? = some NL) ∧
    (∀ j : Nat, regionStart B S ≤ j → j < S.startOffset → B[j]? ≠ some NL) ∧
    S.endOffset ≤ regionEnd B S ∧ regionEnd B S ≤ B.length ∧
    (regionEnd B S = B.length ∨ B[regionEnd B S]? = some NL) ∧
    (∀ j : Nat, S.endOffset ≤ j → j < regionEnd B S → B[j]? ≠ some NL) := by
  obtain ⟨rs, hrs, a1, a2, a3⟩ := startLineStartIndex_spec B S hr hs
  obtain ⟨re, hre, b1, b2, b3, b4⟩ := adjustedEndLineEndIndex_spec B S hr
  have e1 : regionStart B S = rs := by unfold regionStart; rw [hrs]; rfl
  have e2 : regionEnd B S = re := by unfold regionEnd; rw [hre]; rfl
  rw [e1, e2]
  exact ⟨a1, a2, a3, b1, b2, b3, b4⟩

/-- After a paste the selection passed to `_setSelection` is valid for the new buffer. -/
theorem onPaste_selection_valid (B T : JSString) (S : Range) (hr : InRange B S) :
    ValidSelection (_onPaste B S T).textContent (_onPaste B S T).selStart
      (_onPaste B S T).selEnd := by
  have h1 := onPaste_textContent B T S
  have h2 : (_onPaste B S T).selStart = (S.startOffset : Int) := rfl
  have h3 := onPaste_selEnd B T S hr
  obtain ⟨r1, r2⟩ := hr
  unfold ValidSelection
  rw [h1, h2, h3]
  simp only [List.length_append, List.length_take]
  omega

/-- Away from the caret at offset 0 before a newline, the selection `_tabHandler`
passes to `_setSelection` is valid for the new buffer, in both directions. -/
theorem tabHandler_selection_valid (B : JSString) (S : Range) (shiftKey : Bool)
    (hr : InRange B S) (hs : ¬ (S.startOffset = 0 ∧ B[0]? = some NL)) :
    ValidSelection (_tabHandler B S shiftKey).textContent (_tabHandler B S shiftKey).selStart
      (_tabHandler B S shiftKey).selEnd := by
  obtain ⟨-, -, c1, c2, c3, -, -, htext, hstart, hend⟩ := tabHandler_shape B S shiftKey hr hs
  obtain ⟨r1, r2⟩ := hr
  unfold ValidSelection
  rw [htext, hstart, hend]
  simp only [List.length_append, List.length_take]
  omega

theorem linesBy_indented (R : JSString) :
    linesBy isLineTerminator
        ((linesBy isLineTerminator R).map (fun l => indentUnit ++ l)).flatten
      = (linesBy isLineTerminator R).map (fun l => indentUnit ++ l) := by
  induction R with
  | nil => decide
  | cons c cs ih =>
    obtain ⟨l, rest, hl⟩ := linesBy_ne_nil isLineTerminator cs
    by_cases hc : isLineTerminator c = true
    · rw [linesBy_cons_term isLineTerminator c cs hc]
      simp only [List.map_cons, List.flatten_cons]
      have h1 : linesBy isLineTerminator
          ([c] ++ ((linesBy isLineTerminator cs).map (fun l => indentUnit ++ l)).flatten)
          = [c] :: (linesBy isLineTerminator cs).map (fun l => indentUnit ++ l) := by
        rw [List.singleton_append, linesBy_cons_term isLineTerminator c _ hc, ih]
      rw [List.append_assoc, linesBy_unit_append _ _ _ h1]
    · rw [linesBy_cons_not isLineTerminator c cs l rest hc hl]
      rw [hl] at ih
      simp only [List.map_cons, List.flatten_cons] at ih ⊢
      obtain ⟨l2, rest2, hl2⟩ := linesBy_ne_nil isLineTerminator
        (l ++ (rest.map (fun l => indentUnit ++ l)).flatten)
      have h0 := linesBy_unit_append _ _ _ hl2
      rw [← List.append_assoc, ih] at h0
      have hl3 : l2 = l := by
        have := (List.cons.inj h0).1
        exact (List.append_cancel_left this).symm
      have hr3 : rest2 = rest.map (fun l => indentUnit ++ l) := ((List.cons.inj h0).2).symm
      rw [hl3, hr3] at hl2
      have h1 := linesBy_cons_not isLineTerminator c _ _ _ hc hl2
      have h2 := linesBy_unit_append _ _ _ h1
      rw [List.append_assoc, List.cons_append]
      exact h2

/-- Outdenting an indented region gives the region back. -/
theorem outdent_indent (R : JSString) :
    newSelectionText (newSelectionText R false) true = R := by
  have h1 : newSelectionText R false
      = ((linesBy isLineTerminator R).map (fun l => indentUnit ++ l)).flatten := by
    unfold newSelectionText
    simp only [Bool.false_eq_true, if_false]
    exact replaceAll_indent _
  have h2 : ∀ X, newSelectionText X true
      = ((linesBy isLineTerminator X).map stripUnit).flatten := by
    intro X
    unfold newSelectionText
    simp only [if_true]
    exact replaceAll_outdent _
  rw [h2, h1, linesBy_indented, List.map_map]
  have : (stripUnit ∘ fun l => indentUnit ++ l) = id := by
    funext l
    exact stripUnit_unit_append l
  rw [this, List.map_id, flatten_linesBy]

theorem indented_head (R : JSString) :
    ∃ t, newSelectionText R false = SP :: t := by
  have h1 : newSelectionText R false
      = ((linesBy isLineTerminator R).map (fun l => indentUnit ++ l)).flatten := by
    unfold newSelectionText
    simp only [Bool.false_eq_true, if_false]
    exact replaceAll_indent _
  obtain ⟨l, rest, hl⟩ := linesBy_ne_nil isLineTerminator R
  rw [h1, hl]
  exact ⟨_, rfl⟩

/-- Away from the caret at offset 0 before a newline, Tab followed by Shift+Tab on the
restored selection gives the original buffer back, whatever the indentation of its
lines. -/
theorem indentThenOutdent_restores (B : JSString) (S : Range) (hr : InRange B S)
    (hs : ¬ (S.startOffset = 0 ∧ B[0]? = some NL)) :
    (indentThenOutdent B S).map Outcome.textContent = some B := by
  obtain ⟨-, -, c1, c2, c3, -, hpart, htext, hstart, hend⟩ := tabHandler_shape B S false hr hs
  obtain ⟨-, d2, -, -, -, d6, -⟩ := region_bounds B S hr hs
  obtain ⟨r1, r2⟩ := hr
  obtain ⟨t, hX⟩ := indented_head (selectionText B S)
  have htake : (B.take (regionStart B S)).length = regionStart B S := by
    rw [List.length_take]; omega
  -- the restored selection
  have hBlen := congrArg List.length htext
  simp only [List.length_append, htake] at hBlen
  have hne1 : (_tabHandler B S false).textContent ≠ [] := by
    rw [htext, hX]
    simp
  have hS : restoredRange (_tabHandler B S false)
      = some ⟨regionStart B S,
         regionStart B S + (newSelectionText (selectionText B S) false).length⟩ := by
    have e1 : (_tabHandler B S false).range
        = _setSelection (_tabHandler B S false).textContent (_tabHandler B S false).selStart
            (_tabHandler B S false).selEnd := rfl
    unfold restoredRange
    rw [e1, hstart, hend, setSelection_of_valid _ _ _ hne1 (by omega) (by omega) (by omega)]
    simp only [Option.map_some']
    congr 1
  unfold indentThenOutdent
  rw [hS]
  simp only [Option.map_some']
  congr 1
  generalize hB1 : (_tabHandler B S false).textContent = B1 at htext ⊢
  generalize hXdef : newSelectionText (selectionText B S) false = X at htext hX ⊢
  generalize hrs : regionStart B S = rs at *
  generalize hre : regionEnd B S = re at *
  have hlenB1 : B1.length = rs + X.length + (B.length - re) := by
    rw [htext]
    simp only [List.length_append, List.length_drop, htake]
  have hr1 : InRange B1 ⟨rs, rs + X.length⟩ := by
    constructor
    · show rs ≤ rs + X.length
      omega
    · show rs + X.length ≤ B1.length
      omega
  have hlow : ∀ j, j < rs → B1[j]? = B[j]? := by
    intro j hj
    rw [htext, List.append_assoc, List.getElem?_append_left (by omega),
      List.getElem?_take_of_lt hj]
  have hmid : B1.drop rs = X ++ B.drop re := by
    rw [htext, List.append_assoc, List.drop_left' htake]
  have hhigh : B1.drop (rs + X.length) = B.drop re := by
    have : B1.drop (rs + X.length) = (B1.drop rs).drop X.length := by
      rw [List.drop_drop]
    rw [this, hmid, List.drop_left]
  have hs1 : ¬ ((⟨rs, rs + X.length⟩ : Range).startOffset = 0 ∧ B1[0]? = some NL) := by
    rintro ⟨h0, h1⟩
    have h0 : rs = 0 := h0
    have : B1[0]? = some SP := by
      have h2 := congrArg (fun l => l[0]?) hmid
      simp only [List.getElem?_drop, h0, hX] at h2
      simpa using h2
    rw [this] at h1
    exact absurd h1 (by decide)
  obtain ⟨-, -, -, -, -, hsel, -, htext2, -, -⟩ :=
    tabHandler_shape B1 ⟨rs, rs + X.length⟩ true hr1 hs1
  obtain ⟨f1, f2, f3, f4, f5, f6, f7⟩ := region_bounds B1 ⟨rs, rs + X.length⟩ hr1 hs1
  have f1 : regionStart B1 ⟨rs, rs + X.length⟩ ≤ rs := f1
  have f4 : rs + X.length ≤ regionEnd B1 ⟨rs, rs + X.length⟩ := f4
  -- the region of the second step is the indented region of the first
  have hrs2 : regionStart B1 ⟨rs, rs + X.length⟩ = rs := by
    rcases d2 with h | h
    · omega
    · by_contra hne
      have hlt : regionStart B1 ⟨rs, rs + X.length⟩ < rs := by omega
      have hpos : 0 < rs := by omega
      have := f3 (rs - 1) (by omega) (show rs - 1 < rs by omega)
      rw [hlow (rs - 1) (by omega)] at this
      exact this h
  have hre2 : regionEnd B1 ⟨rs, rs + X.length⟩ = rs + X.length := by
    by_contra hne
    have hlt : rs + X.length < regionEnd B1 ⟨rs, rs + X.length⟩ := by omega
    have hnot := f7 (rs + X.length) (le_refl _) hlt
    have hget : B1[rs + X.length]? = B[re]? := by
      have h2 := congrArg (fun l => l[0]?) hhigh
      simpa [List.getElem?_drop] using h2
    rcases d6 with h | h
    · omega
    · rw [hget] at hnot
      exact hnot h
  rw [hrs2, hre2] at hsel htext2
  have hselX : selectionText B1 ⟨rs, rs + X.length⟩ = X := by
    rw [hsel, hmid]
    have : rs + X.length - rs = X.length := by omega
    rw [this, List.take_left]
  have htk : B1.take rs = B.take rs := by
    rw [htext, List.append_assoc, List.take_left' htake]
  rw [htext2, hselX, htk, hhigh, ← hXdef, outdent_indent]
  exact hpart.symm

end EditorjsCode
